import Mathlib

/-!
Verification of the `tracing-build-script` writer (shallow embedding).

The embedded program is the `BuildScriptWriter` from
`src/tracing-build-script/src/lib.rs`:

* `ErrorAndWarnState` is the per-instance state of the errors-and-warnings
  (Directive/stdout) writer: `Init`, `Normal`, or `LastCharWasSpecial ch`.
* `char_is_special` / `escape_special` are the escape policy
  (`escape_special` returns `none` on the source's `unreachable!()` arm).
* `ew_write_all` is the `ErrorsAndWarnings` arm of `Write::write_all`:
  it emits a pending byte or the marker, withholds a trailing special byte,
  and escapes every special byte of the remaining slice.
* `ew_drop_attempt` is `Drop::drop` (the best-effort flush of a pending
  special byte; the `Bool` argument is whether the underlying write
  succeeds, and the result type has no error component because the source
  discards the `io::Result`).
* `make_writer_for` is `MakeWriter::make_writer_for`.

Bytes are modelled as `Nat` (line feed 10, carriage return 13), buffers as
`List Nat`, and the fallible underlying stream writes of a `write_all` call
are modelled as pure output accumulation; the `Option` in `ew_write_all`
models only the `unreachable!()` panic arm of `escape_special`.
-/

/-- The three states of the errors-and-warnings writer
(`enum ErrorAndWarnState` in the source). -/
inductive ErrorAndWarnState : Type where
  | Init : ErrorAndWarnState
  | Normal : ErrorAndWarnState
  | LastCharWasSpecial : Nat → ErrorAndWarnState
deriving DecidableEq, Repr

/-- `fn char_is_special(ch: u8) -> bool { ch == b'\n' || ch == b'\r' }`. -/
def char_is_special (ch : Nat) : Bool :=
  ch == 10 || ch == 13

/-- `fn escape_special(ch: u8) -> &'static [u8]`: line feed becomes
`\n` (bytes 92, 110), carriage return becomes `\r` (bytes 92, 114); the
`unreachable!()` arm is modelled as `none`. -/
def escape_special (ch : Nat) : Option (List Nat) :=
  if ch == 10 then some [92, 110]
  else if ch == 13 then some [92, 114]
  else none

/-- The byte sequence of the marker `cargo::warning=` written in the
`Init` state. -/
def marker_bytes : List Nat :=
  [99, 97, 114, 103, 111, 58, 58, 119, 97, 114, 110, 105, 110, 103, 61]

/-- Negation of `char_is_special`, the predicate used for scanning
(the source scans with `position(|ch| char_is_special(*ch))`; we model the
split at the first special byte with `takeWhile`/`dropWhile` over its
negation). -/
def not_special (ch : Nat) : Bool :=
  !char_is_special ch

/-- The loop of `write_all`: given the last special byte found and the
remaining slice, emit `escape_special` of the byte, then the run of
non-special bytes up to the next special byte, and repeat; when no special
byte remains, emit the rest of the slice and stop. -/
def scan_loop (lsc : Nat) (buf : List Nat) : Option (List Nat) :=
  match escape_special lsc with
  | none => none
  | some e =>
    match h : buf.dropWhile not_special with
    | [] => some (e ++ buf)
    | sp :: rest =>
      match scan_loop sp rest with
      | none => none
      | some tail => some (e ++ buf.takeWhile not_special ++ tail)
termination_by buf.length
decreasing_by
  have hle : (buf.dropWhile not_special).length ≤ buf.length :=
    (List.dropWhile_sublist not_special).length_le
  rw [h] at hle
  simp only [List.length_cons] at hle
  omega

/-- The scan section of `write_all`: find the first special byte of the
(already trimmed) slice; if there is none, write the whole slice (the
source's fast path); otherwise write the non-special run before it and
enter the loop. -/
def emit_body (buf : List Nat) : Option (List Nat) :=
  match buf.dropWhile not_special with
  | [] => some buf
  | sp :: rest =>
    match scan_loop sp rest with
    | none => none
    | some tail => some (buf.takeWhile not_special ++ tail)

/-- The state-dependent output written at the top of `write_all`:
the marker in `Init`, the escape of the pending byte in
`LastCharWasSpecial`, nothing in `Normal`. -/
def pre_emit (st : ErrorAndWarnState) : Option (List Nat) :=
  match st with
  | .Init => some marker_bytes
  | .LastCharWasSpecial ch => escape_special ch
  | .Normal => some []

/-- The last-byte handling of `write_all`: if the buffer ends in a special
byte, remove it and move to `LastCharWasSpecial` of that byte; otherwise
keep the buffer and move to `Normal`. -/
def split_trailing (buf0 : List Nat) : List Nat × ErrorAndWarnState :=
  match buf0.getLast? with
  | some ch =>
    if char_is_special ch then (buf0.dropLast, .LastCharWasSpecial ch)
    else (buf0, .Normal)
  | none => (buf0, .Normal)

/-- The `ErrorsAndWarnings` arm of `Write::write_all`: returns the bytes
written to the underlying stream and the successor state, or `none` if an
`unreachable!()` arm of `escape_special` were hit. -/
def ew_write_all (st : ErrorAndWarnState) (buf0 : List Nat) :
    Option (List Nat × ErrorAndWarnState) :=
  match pre_emit st with
  | none => none
  | some p =>
    match emit_body (split_trailing buf0).1 with
    | none => none
    | some body => some (p ++ body, (split_trailing buf0).2)

/-- `Drop::drop` with an explicit success flag for the underlying
`writer.write(&[ch])`: in `LastCharWasSpecial ch` the single byte `ch` is
written verbatim when the write succeeds and nothing reaches the stream
when it fails; the result of the write is discarded (`let _ = ...`), so
the return type has no error component. Other states write nothing. -/
def ew_drop_attempt (st : ErrorAndWarnState) (write_ok : Bool) : List Nat :=
  match st with
  | .LastCharWasSpecial ch => if write_ok then [ch] else []
  | _ => []

/-- `Drop::drop` on the success path of the underlying write. -/
def ew_drop (st : ErrorAndWarnState) : List Nat :=
  ew_drop_attempt st true

/-- Run a sequence of `write_all` calls from a given state, accumulating
the bytes written to the underlying stream. -/
def ew_runFrom (st : ErrorAndWarnState) :
    List (List Nat) → Option (List Nat × ErrorAndWarnState)
  | [] => some ([], st)
  | c :: cs =>
    match ew_write_all st c with
    | none => none
    | some (out, st') =>
      match ew_runFrom st' cs with
      | none => none
      | some (out2, st'') => some (out ++ out2, st'')

/-- Run a sequence of `write_all` calls on a fresh
`BuildScriptWriter::errors_and_warnings()` writer (state `Init`). -/
def ew_run (cs : List (List Nat)) : Option (List Nat × ErrorAndWarnState) :=
  ew_runFrom .Init cs

/-- Feed a sequence of chunks to a fresh errors-and-warnings writer and
then drop it: the total byte sequence on the underlying stream. -/
def ew_process (cs : List (List Nat)) : Option (List Nat) :=
  match ew_run cs with
  | none => none
  | some (out, st) => some (out ++ ew_drop st)

/-- Per-byte view of the escape policy used to state the transducer's
output: a special byte maps to its escape sequence, any other byte to
itself. -/
def esc_byte (b : Nat) : List Nat :=
  match escape_special b with
  | some e => e
  | none => [b]

/-- Escape every special byte of a buffer (per-byte expansion). -/
def escAll (buf : List Nat) : List Nat :=
  (buf.map esc_byte).flatten

/-- The bytes `pre_emit` writes when it does not hit the unreachable arm. -/
def pre_bytes (st : ErrorAndWarnState) : List Nat :=
  match st with
  | .Init => marker_bytes
  | .LastCharWasSpecial ch => esc_byte ch
  | .Normal => []

/-- Well-formedness of a writer state: a withheld byte is always special. -/
def state_ok (st : ErrorAndWarnState) : Bool :=
  match st with
  | .LastCharWasSpecial ch => char_is_special ch
  | _ => true

/-- Number of bytes withheld by a state (the pending byte of
`LastCharWasSpecial`, if any). -/
def withheld_bytes (st : ErrorAndWarnState) : Nat :=
  match st with
  | .LastCharWasSpecial _ => 1
  | _ => 0

/-- Whether a state is the `Init` state. -/
def is_init (st : ErrorAndWarnState) : Bool :=
  match st with
  | .Init => true
  | _ => false

/-- Number of times the marker is written across a sequence of `write_all`
calls: the source writes it exactly when a call starts in state `Init`. -/
def ew_marker_emits : ErrorAndWarnState → List (List Nat) → Nat
  | _, [] => 0
  | st, c :: cs =>
    (if is_init st then 1 else 0) +
      match ew_write_all st c with
      | some (_, st') => ew_marker_emits st' cs
      | none => 0

/-- The five `tracing::Level` values. -/
inductive Level : Type where
  | TRACE : Level
  | DEBUG : Level
  | INFO : Level
  | WARN : Level
  | ERROR : Level
deriving DecidableEq, Repr

/-- The two writer kinds a `BuildScriptMakeWriter` can construct. -/
inductive WriterKind : Type where
  | Informational : WriterKind
  | ErrorsAndWarnings : WriterKind
deriving DecidableEq, Repr

/-- `MakeWriter::make_writer_for`: errors-and-warnings writer for `ERROR`
and `WARN`, informational writer otherwise. -/
def make_writer_for (l : Level) : WriterKind :=
  if l = .ERROR || l = .WARN then .ErrorsAndWarnings
  else .Informational

/-! ## Helper lemmas -/

theorem escape_special_of_special (b : Nat) (hb : char_is_special b = true) :
    escape_special b = some (esc_byte b) := by
  simp only [char_is_special, Bool.or_eq_true, beq_iff_eq] at hb
  rcases hb with hb | hb <;> subst hb <;> rfl

theorem escape_special_of_not_special (b : Nat) (hb : char_is_special b = false) :
    escape_special b = none := by
  simp only [char_is_special, Bool.or_eq_false_iff, beq_eq_false_iff_ne, ne_eq] at hb
  simp [escape_special, hb.1, hb.2]

theorem esc_byte_of_not_special (b : Nat) (hb : char_is_special b = false) :
    esc_byte b = [b] := by
  simp [esc_byte, escape_special_of_not_special b hb]

theorem escAll_append (a b : List Nat) : escAll (a ++ b) = escAll a ++ escAll b := by
  simp [escAll]

theorem escAll_cons (x : Nat) (l : List Nat) :
    escAll (x :: l) = esc_byte x ++ escAll l := by
  simp [escAll]

theorem escAll_concat (l : List Nat) (x : Nat) :
    escAll (l ++ [x]) = escAll l ++ esc_byte x := by
  simp [escAll]

theorem escAll_of_all_not_special (l : List Nat)
    (h : ∀ b ∈ l, not_special b = true) : escAll l = l := by
  induction l with
  | nil => rfl
  | cons x xs ih =>
    have hx : char_is_special x = false := by
      have := h x (by simp)
      simpa [not_special] using this
    rw [escAll_cons, esc_byte_of_not_special x hx, ih fun b hb => h b (by simp [hb])]
    rfl
theorem not_special_of_dropWhile_cons {buf rest : List Nat} {sp : Nat}
    (h : buf.dropWhile not_special = sp :: rest) : char_is_special sp = true := by
  have hh := List.head?_dropWhile_not not_special buf
  rw [h] at hh
  simp only [List.head?_cons] at hh
  simpa [not_special] using hh

theorem scan_loop_eq_aux (n : Nat) : ∀ (lsc : Nat) (buf : List Nat),
    buf.length ≤ n → char_is_special lsc = true →
    scan_loop lsc buf = some (esc_byte lsc ++ escAll buf) := by
  induction n with
  | zero =>
    intro lsc buf hlen hs
    have hb : buf = [] := List.length_eq_zero.mp (Nat.le_zero.mp hlen)
    subst hb
    rw [scan_loop, escape_special_of_special lsc hs]
    rfl
  | succ n ih =>
    intro lsc buf hlen hs
    rw [scan_loop, escape_special_of_special lsc hs]
    cases hd : buf.dropWhile not_special with
    | nil =>
      have hall : ∀ b ∈ buf, not_special b = true :=
        List.dropWhile_eq_nil_iff.mp hd
      rw [escAll_of_all_not_special buf hall]
    | cons sp rest =>
      have hsp : char_is_special sp = true := not_special_of_dropWhile_cons hd
      have hrest : rest.length ≤ n := by
        have hle : (buf.dropWhile not_special).length ≤ buf.length :=
          (List.dropWhile_sublist not_special).length_le
        rw [hd] at hle
        simp only [List.length_cons] at hle
        omega
      conv_lhs => whnf
      rw [ih sp rest hrest hsp]
      have hdecomp : buf = buf.takeWhile not_special ++ sp :: rest := by
        conv_lhs => rw [← List.takeWhile_append_dropWhile not_special buf]
        rw [hd]
      have htake : escAll (buf.takeWhile not_special) = buf.takeWhile not_special :=
        escAll_of_all_not_special _ fun b hb => List.mem_takeWhile_imp hb
      conv_rhs => rw [hdecomp]
      rw [escAll_append, escAll_cons, htake]
      simp

theorem scan_loop_eq (lsc : Nat) (buf : List Nat) (hs : char_is_special lsc = true) :
    scan_loop lsc buf = some (esc_byte lsc ++ escAll buf) :=
  scan_loop_eq_aux buf.length lsc buf (Nat.le_refl _) hs

theorem emit_body_eq (buf : List Nat) : emit_body buf = some (escAll buf) := by
  rw [emit_body]
  cases hd : buf.dropWhile not_special with
  | nil =>
    have hall : ∀ b ∈ buf, not_special b = true :=
      List.dropWhile_eq_nil_iff.mp hd
    rw [escAll_of_all_not_special buf hall]
  | cons sp rest =>
    have hsp : char_is_special sp = true := not_special_of_dropWhile_cons hd
    conv_lhs => whnf
    rw [scan_loop_eq sp rest hsp]
    have hdecomp : buf = buf.takeWhile not_special ++ sp :: rest := by
      conv_lhs => rw [← List.takeWhile_append_dropWhile not_special buf]
      rw [hd]
    have htake : escAll (buf.takeWhile not_special) = buf.takeWhile not_special :=
      escAll_of_all_not_special _ fun b hb => List.mem_takeWhile_imp hb
    conv_rhs => rw [hdecomp]
    rw [escAll_append, escAll_cons, htake]

theorem pre_emit_eq (st : ErrorAndWarnState) (hok : state_ok st = true) :
    pre_emit st = some (pre_bytes st) := by
  cases st with
  | Init => rfl
  | Normal => rfl
  | LastCharWasSpecial ch =>
    simp only [state_ok] at hok
    simp [pre_emit, pre_bytes, escape_special_of_special ch hok]

theorem split_trailing_ok (buf : List Nat) :
    state_ok (split_trailing buf).2 = true := by
  rw [split_trailing]
  cases hl : buf.getLast? with
  | none => rfl
  | some ch =>
    by_cases hch : char_is_special ch = true
    · simp [hch, state_ok]
    · simp [Bool.not_eq_true] at hch
      simp [hch, state_ok]

theorem split_trailing_not_init (buf : List Nat) :
    is_init (split_trailing buf).2 = false := by
  rw [split_trailing]
  cases hl : buf.getLast? with
  | none => rfl
  | some ch =>
    by_cases hch : char_is_special ch = true
    · simp [hch, is_init]
    · simp [Bool.not_eq_true] at hch
      simp [hch, is_init]

theorem ew_write_all_eq (st : ErrorAndWarnState) (buf : List Nat)
    (hok : state_ok st = true) :
    ew_write_all st buf =
      some (pre_bytes st ++ escAll (split_trailing buf).1, (split_trailing buf).2) := by
  rw [ew_write_all, pre_emit_eq st hok, emit_body_eq]

theorem escAll_split_join (c : List Nat) :
    escAll (split_trailing c).1 ++ pre_bytes (split_trailing c).2 = escAll c := by
  rw [split_trailing]
  cases hl : c.getLast? with
  | none =>
    have hc : c = [] := List.getLast?_eq_none_iff.mp hl
    subst hc
    rfl
  | some ch =>
    have hc : c.dropLast ++ [ch] = c := List.dropLast_append_getLast? ch hl
    by_cases hch : char_is_special ch = true
    · simp only [hch, if_true, pre_bytes]
      rw [← escAll_concat, hc]
    · simp only [Bool.not_eq_true] at hch
      simp only [hch, Bool.false_eq_true, if_false, pre_bytes]
      simp

theorem split_trailing_append (c J : List Nat) (hJ : J ≠ []) :
    split_trailing (c ++ J) = (c ++ (split_trailing J).1, (split_trailing J).2) := by
  rw [split_trailing, split_trailing]
  cases hl : J.getLast? with
  | none => exact absurd (List.getLast?_eq_none_iff.mp hl) hJ
  | some ch =>
    have hl2 : (c ++ J).getLast? = some ch := by
      rw [List.getLast?_append, hl]
      rfl
    rw [hl2]
    by_cases hch : char_is_special ch = true
    · simp only [hch, if_true]
      rw [List.dropLast_append_of_ne_nil c hJ]
    · simp only [Bool.not_eq_true] at hch
      simp [hch]

theorem flatten_ne_nil (cs : List (List Nat)) (hne : cs ≠ [])
    (hall : ∀ c ∈ cs, c ≠ []) : cs.flatten ≠ [] := by
  intro hfl
  rcases cs with _ | ⟨c, cs⟩
  · exact hne rfl
  · exact hall c (by simp) (List.flatten_eq_nil_iff.mp hfl c (by simp))

theorem ew_runFrom_eq (cs : List (List Nat)) : ∀ (st : ErrorAndWarnState),
    state_ok st = true → cs ≠ [] → (∀ c ∈ cs, c ≠ []) →
    ew_runFrom st cs =
      some (pre_bytes st ++ escAll (split_trailing cs.flatten).1,
        (split_trailing cs.flatten).2) := by
  induction cs with
  | nil => intro st _ hne _; exact absurd rfl hne
  | cons c cs ih =>
    intro st hok _ hall
    rw [ew_runFrom, ew_write_all_eq st c hok]
    conv_lhs => whnf
    cases hcs : cs with
    | nil =>
      rw [ew_runFrom]
      conv_lhs => whnf
      simp only [List.flatten_cons, List.flatten_nil, List.append_nil]
    | cons c2 cs2 =>
      rw [← hcs]
      have hcsne : cs ≠ [] := by rw [hcs]; simp
      have hJ : cs.flatten ≠ [] :=
        flatten_ne_nil cs hcsne fun x hx => hall x (by simp [hx])
      rw [ih (split_trailing c).2 (split_trailing_ok c) hcsne
        fun x hx => hall x (by simp [hx])]
      conv_lhs => whnf
      have hsplit : split_trailing (c :: cs).flatten =
          (c ++ (split_trailing cs.flatten).1, (split_trailing cs.flatten).2) := by
        rw [List.flatten_cons]
        exact split_trailing_append c cs.flatten hJ
      rw [hsplit]
      simp only [Prod.mk.injEq, and_true, Option.some.injEq]
      rw [escAll_append, ← List.append_assoc, ← List.append_assoc,
        List.append_assoc (pre_bytes st), escAll_split_join c]

theorem ew_process_eq (cs : List (List Nat)) (hne : cs ≠ [])
    (hall : ∀ c ∈ cs, c ≠ []) :
    ew_process cs =
      some (marker_bytes ++ escAll (split_trailing cs.flatten).1 ++
        ew_drop (split_trailing cs.flatten).2) := by
  rw [ew_process, ew_run, ew_runFrom_eq cs .Init rfl hne hall]
  simp [pre_bytes]

theorem ew_write_all_state (st : ErrorAndWarnState) (buf : List Nat)
    (o : List Nat) (st' : ErrorAndWarnState)
    (h : ew_write_all st buf = some (o, st')) : st' = (split_trailing buf).2 := by
  rw [ew_write_all] at h
  cases hp : pre_emit st with
  | none => rw [hp] at h; exact absurd h (by simp)
  | some p =>
    rw [hp] at h
    cases hb : emit_body (split_trailing buf).1 with
    | none => rw [hb] at h; exact absurd h (by simp)
    | some body =>
      rw [hb] at h
      simp only [Option.some.injEq, Prod.mk.injEq] at h
      exact h.2.symm

theorem ew_runFrom_ok (cs : List (List Nat)) : ∀ (st : ErrorAndWarnState),
    state_ok st = true →
    ∃ out st', ew_runFrom st cs = some (out, st') ∧ state_ok st' = true := by
  induction cs with
  | nil => intro st hok; exact ⟨[], st, rfl, hok⟩
  | cons c cs ih =>
    intro st hok
    obtain ⟨out2, st'', h2, hok2⟩ := ih (split_trailing c).2 (split_trailing_ok c)
    refine ⟨pre_bytes st ++ escAll (split_trailing c).1 ++ out2, st'', ?_, hok2⟩
    rw [ew_runFrom, ew_write_all_eq st c hok]
    conv_lhs => whnf
    rw [h2]

theorem ew_marker_emits_zero (cs : List (List Nat)) : ∀ (st : ErrorAndWarnState),
    is_init st = false → ew_marker_emits st cs = 0 := by
  induction cs with
  | nil => intro st _; rfl
  | cons c cs ih =>
    intro st hst
    rw [ew_marker_emits, hst]
    cases hw : ew_write_all st c with
    | none => simp
    | some p =>
      obtain ⟨o, st'⟩ := p
      have : st' = (split_trailing c).2 := ew_write_all_state st c o st' hw
      simp only [if_false]
      rw [ih st' (this ▸ split_trailing_not_init c)]
      simp

theorem ew_runFrom_append_singleton (cs : List (List Nat)) :
    ∀ (st : ErrorAndWarnState) (d out : List Nat) (st₁ : ErrorAndWarnState)
    (o2 : List Nat) (st₂ : ErrorAndWarnState),
    ew_runFrom st cs = some (out, st₁) → ew_write_all st₁ d = some (o2, st₂) →
    ew_runFrom st (cs ++ [d]) = some (out ++ o2, st₂) := by
  induction cs with
  | nil =>
    intro st d out st₁ o2 st₂ h1 h2
    rw [ew_runFrom] at h1
    simp only [Option.some.injEq, Prod.mk.injEq] at h1
    obtain ⟨h1a, h1b⟩ := h1
    subst h1a h1b
    simp only [List.nil_append]
    rw [ew_runFrom, h2]
    conv_lhs => whnf
    simp
  | cons c cs ih =>
    intro st d out st₁ o2 st₂ h1 h2
    simp only [List.cons_append]
    rw [ew_runFrom] at h1 ⊢
    split at h1
    · exact Option.noConfusion h1
    · rename_i o1 st' heq
      split at h1
      · exact Option.noConfusion h1
      · rename_i outr str heq2
        simp only [Option.some.injEq, Prod.mk.injEq] at h1
        obtain ⟨h1a, h1b⟩ := h1
        subst h1b
        rw [ih _ _ _ _ _ _ heq2 h2]
        conv_lhs => whnf
        rw [← h1a, List.append_assoc]

theorem split_trailing_concat (B : List Nat) (ch : Nat)
    (hch : char_is_special ch = true) :
    split_trailing (B ++ [ch]) = (B, .LastCharWasSpecial ch) := by
  rw [split_trailing, List.getLast?_concat]
  show (if char_is_special ch = true then
      ((B ++ [ch]).dropLast, ErrorAndWarnState.LastCharWasSpecial ch)
    else (B ++ [ch], ErrorAndWarnState.Normal)) =
    (B, ErrorAndWarnState.LastCharWasSpecial ch)
  rw [if_pos hch, List.dropLast_concat]

theorem ew_marker_emits_le_one (cs : List (List Nat)) (st : ErrorAndWarnState) :
    ew_marker_emits st cs ≤ 1 := by
  cases cs with
  | nil => simp [ew_marker_emits]
  | cons c cs =>
    rw [ew_marker_emits]
    cases hw : ew_write_all st c with
    | none =>
      show (if is_init st then 1 else 0) + 0 ≤ 1
      cases st <;> simp [is_init]
    | some p =>
      obtain ⟨o, st'⟩ := p
      have hst' := ew_write_all_state st c o st' hw
      show (if is_init st then 1 else 0) + ew_marker_emits st' cs ≤ 1
      rw [ew_marker_emits_zero cs st' (by rw [hst']; exact split_trailing_not_init c)]
      cases st <;> simp [is_init]

theorem ew_marker_emits_init_cons (c : List Nat) (cs : List (List Nat)) :
    ew_marker_emits .Init (c :: cs) = 1 := by
  rw [ew_marker_emits]
  cases hw : ew_write_all .Init c with
  | none =>
    rw [ew_write_all_eq .Init c rfl] at hw
    exact Option.noConfusion hw
  | some p =>
    obtain ⟨o, st'⟩ := p
    have hst' := ew_write_all_state .Init c o st' hw
    show (if is_init .Init then 1 else 0) + ew_marker_emits st' cs = 1
    rw [ew_marker_emits_zero cs st' (by rw [hst']; exact split_trailing_not_init c)]
    simp [is_init]

/-! ## Claims -/

/-- C1: Chunk-invariance of the Directive-channel writer: for every message
body `M` and every way of splitting `M` into a (non-empty) sequence of
non-empty chunks `C1..Cn` whose concatenation is `M`, feeding the chunks to
a fresh errors-and-warnings writer via successive `write_all` calls and then
dropping it produces exactly the same output byte sequence on the underlying
stream as feeding `M` in a single `write_all` call and then dropping it. -/
theorem chunk_invariance (cs : List (List Nat)) (M : List Nat)
    (hne : cs ≠ []) (hall : ∀ c ∈ cs, c ≠ []) (hjoin : cs.flatten = M) :
    ew_process cs = ew_process [M] := by
  subst hjoin
  have hM : cs.flatten ≠ [] := flatten_ne_nil cs hne hall
  rw [ew_process_eq cs hne hall,
    ew_process_eq [cs.flatten] (by simp) (by simpa using hM)]
  rw [List.flatten_cons, List.flatten_nil, List.append_nil]

/-- Witness for C1 at the concrete split `[104] ++ [105, 10]`. -/
theorem chunk_invariance_witness :
    ([[104], [105, 10]] : List (List Nat)) ≠ [] ∧
    (∀ c ∈ ([[104], [105, 10]] : List (List Nat)), c ≠ []) ∧
    ([[104], [105, 10]] : List (List Nat)).flatten = [104, 105, 10] ∧
    ew_process [[104], [105, 10]] = ew_process [[104, 105, 10]] :=
  ⟨by decide, by decide, by decide,
    chunk_invariance [[104], [105, 10]] [104, 105, 10] (by decide) (by decide)
      (by decide)⟩

/-- C2: Terminal-linebreak preservation: a record whose byte sequence ends
in exactly one trailing line feed (byte 10), fed through a fresh
errors-and-warnings writer in one or more `write_all` calls followed by
teardown, has that final line feed verbatim (unescaped) as the last byte of
the emitted output, while every line feed or carriage return occurring
earlier in the record is replaced by its two-byte escape sequence
(`esc_byte 10 = [92, 110]`, `esc_byte 13 = [92, 114]`, identity
elsewhere). -/
theorem terminal_linefeed (cs : List (List Nat)) (B : List Nat)
    (hne : cs ≠ []) (hall : ∀ c ∈ cs, c ≠ [])
    (hjoin : cs.flatten = B ++ [10]) (hone : B.getLast? ≠ some 10) :
    ew_process cs = some (marker_bytes ++ escAll B ++ [10]) ∧
    esc_byte 10 = [92, 110] ∧ esc_byte 13 = [92, 114] := by
  refine ⟨?_, rfl, rfl⟩
  rw [ew_process_eq cs hne hall, hjoin,
    split_trailing_concat B 10 (by decide)]
  rfl

/-- Witness for C2 at the record `[97, 10, 98, 10]` split into two chunks. -/
theorem terminal_linefeed_witness :
    ([[97, 10], [98, 10]] : List (List Nat)) ≠ [] ∧
    (∀ c ∈ ([[97, 10], [98, 10]] : List (List Nat)), c ≠ []) ∧
    ([[97, 10], [98, 10]] : List (List Nat)).flatten = [97, 10, 98] ++ [10] ∧
    ([97, 10, 98] : List Nat).getLast? ≠ some 10 ∧
    (ew_process [[97, 10], [98, 10]] =
      some (marker_bytes ++ escAll [97, 10, 98] ++ [10]) ∧
    esc_byte 10 = [92, 110] ∧ esc_byte 13 = [92, 114]) :=
  ⟨by decide, by decide, by decide, by decide,
    terminal_linefeed [[97, 10], [98, 10]] [97, 10, 98] (by decide) (by decide)
      (by decide) (by decide)⟩

/-- C3: Marker-once and laziness: for every errors-and-warnings writer
instance fed a non-empty sequence of non-empty chunks (at least one byte of
content), the marker `cargo::warning=` is emitted exactly once, at the very
start of the emitted output; an instance through which zero bytes are
written (no `write_all` call at all) emits nothing, in particular no marker
(the marker is emitted on first content, not on instance creation). -/
theorem marker_once (cs : List (List Nat)) (hne : cs ≠ [])
    (hall : ∀ c ∈ cs, c ≠ []) :
    (∃ t, ew_process cs = some (marker_bytes ++ t)) ∧
    ew_marker_emits .Init cs = 1 ∧
    ew_process [] = some [] ∧ ew_marker_emits .Init [] = 0 := by
  refine ⟨?_, ?_, rfl, rfl⟩
  · refine ⟨escAll (split_trailing cs.flatten).1 ++
      ew_drop (split_trailing cs.flatten).2, ?_⟩
    rw [ew_process_eq cs hne hall, List.append_assoc]
  · rcases cs with _ | ⟨c, cs⟩
    · exact absurd rfl hne
    · exact ew_marker_emits_init_cons c cs

/-- Witness for C3 at the single chunk `[65]`. -/
theorem marker_once_witness :
    ([[65]] : List (List Nat)) ≠ [] ∧
    (∀ c ∈ ([[65]] : List (List Nat)), c ≠ []) ∧
    ((∃ t, ew_process [[65]] = some (marker_bytes ++ t)) ∧
      ew_marker_emits .Init [[65]] = 1 ∧
      ew_process [] = some [] ∧ ew_marker_emits .Init [] = 0) :=
  ⟨by decide, by decide, marker_once [[65]] (by decide) (by decide)⟩

/-- C4: Empty-buffer writes are not no-ops on the Directive channel:
`write_all` with an empty slice in state `Init` emits the marker and moves
to `Normal`; in state `LastCharWasSpecial ch` it emits the escaped form of
`ch` and moves to `Normal`; hence inserting an empty write call between a
chunk sequence ending in a special byte and teardown changes the output
(the final special byte is emitted escaped instead of verbatim). -/
theorem empty_write_not_noop :
    ew_write_all .Init [] = some (marker_bytes, .Normal) ∧
    (∀ ch, char_is_special ch = true →
      ew_write_all (.LastCharWasSpecial ch) [] = some (esc_byte ch, .Normal)) ∧
    (∀ cs out ch, ew_run cs = some (out, .LastCharWasSpecial ch) →
      ew_process cs = some (out ++ [ch]) ∧
      ew_process (cs ++ [[]]) = some (out ++ esc_byte ch) ∧
      ew_process (cs ++ [[]]) ≠ ew_process cs) := by
  have hempty : ∀ ch, char_is_special ch = true →
      ew_write_all (.LastCharWasSpecial ch) [] = some (esc_byte ch, .Normal) := by
    intro ch hch
    rw [ew_write_all_eq (.LastCharWasSpecial ch) []
      (by simpa [state_ok] using hch)]
    simp [pre_bytes, split_trailing, escAll]
  refine ⟨by decide, hempty, ?_⟩
  intro cs out ch hrun
  obtain ⟨out2, st2, hr2, hok2⟩ := ew_runFrom_ok cs .Init rfl
  rw [ew_run] at hrun
  rw [hrun] at hr2
  simp only [Option.some.injEq, Prod.mk.injEq] at hr2
  obtain ⟨_, hst2⟩ := hr2
  rw [← hst2] at hok2
  have hch : char_is_special ch = true := by simpa [state_ok] using hok2
  have hproc : ew_process cs = some (out ++ [ch]) := by
    rw [ew_process, ew_run, hrun]
    rfl
  have hrun2 : ew_runFrom .Init (cs ++ [[]]) = some (out ++ esc_byte ch, .Normal) :=
    ew_runFrom_append_singleton cs .Init [] out (.LastCharWasSpecial ch)
      (esc_byte ch) .Normal hrun (hempty ch hch)
  have hproc2 : ew_process (cs ++ [[]]) = some (out ++ esc_byte ch) := by
    rw [ew_process, ew_run, hrun2]
    simp [ew_drop, ew_drop_attempt]
  refine ⟨hproc, hproc2, ?_⟩
  rw [hproc, hproc2]
  intro heq
  simp only [Option.some.injEq, List.append_cancel_left_eq] at heq
  have hlen : (esc_byte ch).length = 1 := by rw [heq]; rfl
  have : (esc_byte ch).length = 2 := by
    simp only [char_is_special, Bool.or_eq_true, beq_iff_eq] at hch
    rcases hch with h | h <;> subst h <;> rfl
  omega

/-- Witness for C4 at the chunk sequence `[[10]]` (pending line feed). -/
theorem empty_write_not_noop_witness :
    char_is_special 10 = true ∧
    ew_write_all (.LastCharWasSpecial 10) [] = some (esc_byte 10, .Normal) ∧
    ew_run [[10]] = some (marker_bytes, .LastCharWasSpecial 10) ∧
    (ew_process [[10]] = some (marker_bytes ++ [10]) ∧
      ew_process [[10], []] = some (marker_bytes ++ esc_byte 10) ∧
      ew_process [[10], []] ≠ ew_process [[10]]) :=
  ⟨by decide, empty_write_not_noop.2.1 10 (by decide), by decide,
    empty_write_not_noop.2.2 [[10]] marker_bytes 10 (by decide)⟩

/-- C5: Escape policy: `char_is_special b` returns `true` exactly when `b`
is the line-feed byte (10) or the carriage-return byte (13);
`escape_special` maps line feed to the two-byte sequence backslash, `n`
(92, 110) and carriage return to backslash, `r` (92, 114), and is defined
(non-`none`, i.e. non-panicking) exactly for those two special bytes. -/
theorem escape_policy (b : Nat) :
    (char_is_special b = true ↔ (b = 10 ∨ b = 13)) ∧
    escape_special 10 = some [92, 110] ∧
    escape_special 13 = some [92, 114] ∧
    ((escape_special b).isSome = true ↔ char_is_special b = true) := by
  refine ⟨?_, rfl, rfl, ?_⟩
  · simp [char_is_special]
  · constructor
    · intro h
      by_cases hb : char_is_special b = true
      · exact hb
      · rw [escape_special_of_not_special b (by simpa using hb)] at h
        exact Bool.noConfusion h
    · intro h
      rw [escape_special_of_special b h]
      rfl

/-- Witness for C5 at the concrete byte 10. -/
theorem escape_policy_witness :
    (char_is_special 10 = true ↔ (10 = 10 ∨ 10 = 13)) ∧
    escape_special 10 = some [92, 110] ∧
    escape_special 13 = some [92, 114] ∧
    ((escape_special 10).isSome = true ↔ char_is_special 10 = true) :=
  escape_policy 10

/-- C6: Channel selection: `make_writer_for` is a pure total function of
the event's severity level that returns the errors-and-warnings
(Directive/stdout) writer exactly when the level is `WARN` or `ERROR`, and
the informational (Plain/stderr) writer for every other level. -/
theorem channel_selection (l : Level) :
    (make_writer_for l = .ErrorsAndWarnings ↔ (l = .WARN ∨ l = .ERROR)) ∧
    (make_writer_for l = .Informational ↔ ¬(l = .WARN ∨ l = .ERROR)) := by
  cases l <;> decide

/-- Witness for C6 at the concrete level `WARN`. -/
theorem channel_selection_witness :
    (make_writer_for .WARN = .ErrorsAndWarnings ↔
      (Level.WARN = .WARN ∨ Level.WARN = .ERROR)) ∧
    (make_writer_for .WARN = .Informational ↔
      ¬(Level.WARN = .WARN ∨ Level.WARN = .ERROR)) :=
  channel_selection .WARN

/-- C7: Finalization flush is best-effort and verbatim: dropping an
errors-and-warnings writer in state `LastCharWasSpecial ch` writes exactly
the single byte `ch` unescaped to the underlying stream when the
underlying write succeeds and nothing when it fails, with the failure
never surfaced (the result type of the teardown has no error component,
mirroring the discarded `io::Result`); teardown in any other state writes
nothing. -/
theorem drop_best_effort (ch : Nat) (ok : Bool) :
    ew_drop_attempt (.LastCharWasSpecial ch) ok = (if ok then [ch] else []) ∧
    ew_drop (.LastCharWasSpecial ch) = [ch] ∧
    ew_drop_attempt .Init ok = [] ∧
    ew_drop_attempt .Normal ok = [] :=
  ⟨rfl, rfl, rfl, rfl⟩

/-- C8: State-machine invariants: across every sequence of `write_all`
calls on an errors-and-warnings writer, the reachable state withholds at
most one byte, the marker is emitted at most once per writer instance, and
the marker is emitted before any content byte of the instance reaches the
underlying stream (the output is empty or starts with the marker). -/
theorem state_invariants (cs : List (List Nat)) (out : List Nat)
    (st : ErrorAndWarnState) (h : ew_run cs = some (out, st)) :
    withheld_bytes st ≤ 1 ∧ ew_marker_emits .Init cs ≤ 1 ∧
    (out = [] ∨ ∃ t, out = marker_bytes ++ t) := by
  refine ⟨?_, ew_marker_emits_le_one cs .Init, ?_⟩
  · cases st <;> simp [withheld_bytes]
  · rcases cs with _ | ⟨c, cs⟩
    · left
      rw [ew_run, ew_runFrom] at h
      simp only [Option.some.injEq, Prod.mk.injEq] at h
      exact h.1.symm
    · right
      obtain ⟨out2, st2, hr, _⟩ := ew_runFrom_ok cs (split_trailing c).2
        (split_trailing_ok c)
      have hrun : ew_run (c :: cs) =
          some (marker_bytes ++ escAll (split_trailing c).1 ++ out2, st2) := by
        rw [ew_run, ew_runFrom, ew_write_all_eq .Init c rfl]
        conv_lhs => whnf
        rw [hr]
        rfl
      rw [hrun] at h
      simp only [Option.some.injEq, Prod.mk.injEq] at h
      exact ⟨escAll (split_trailing c).1 ++ out2,
        by rw [← h.1, List.append_assoc]⟩

/-- Witness for C8 at the single chunk `[65]`. -/
theorem state_invariants_witness :
    ew_run [[65]] = some (marker_bytes ++ [65], .Normal) ∧
    (withheld_bytes .Normal ≤ 1 ∧ ew_marker_emits .Init [[65]] ≤ 1 ∧
      (marker_bytes ++ [65] = [] ∨
        ∃ t, marker_bytes ++ [65] = marker_bytes ++ t)) :=
  ⟨by decide, state_invariants [[65]] (marker_bytes ++ [65]) .Normal (by decide)⟩

/-- C9: Non-special bytes untouched: the errors-and-warnings writer's
output for a record is the marker followed by the per-byte expansion
`esc_byte` of the record (with the withheld trailing byte flushed by
teardown), and `esc_byte` is the identity on every byte other than line
feed and carriage return — so every non-special byte (including NUL, tab,
double quote and backslash) appears unmodified and in its original
relative order, and only line-feed and carriage-return bytes are ever
rewritten. -/
theorem non_special_untouched (cs : List (List Nat)) (M : List Nat)
    (hne : cs ≠ []) (hall : ∀ c ∈ cs, c ≠ []) (hjoin : cs.flatten = M) :
    ew_process cs =
      some (marker_bytes ++ ((split_trailing M).1.map esc_byte).flatten ++
        ew_drop (split_trailing M).2) ∧
    (∀ b, char_is_special b = false → esc_byte b = [b]) := by
  subst hjoin
  exact ⟨by rw [ew_process_eq cs hne hall]; rfl,
    fun b hb => esc_byte_of_not_special b hb⟩

/-- Witness for C9 at the record `[0, 9, 34, 92, 13, 65]` (NUL, tab,
double quote, backslash, carriage return, letter). -/
theorem non_special_untouched_witness :
    ([[0, 9, 34, 92, 13, 65]] : List (List Nat)) ≠ [] ∧
    (∀ c ∈ ([[0, 9, 34, 92, 13, 65]] : List (List Nat)), c ≠ []) ∧
    ([[0, 9, 34, 92, 13, 65]] : List (List Nat)).flatten = [0, 9, 34, 92, 13, 65] ∧
    (ew_process [[0, 9, 34, 92, 13, 65]] =
      some (marker_bytes ++
        ((split_trailing [0, 9, 34, 92, 13, 65]).1.map esc_byte).flatten ++
        ew_drop (split_trailing [0, 9, 34, 92, 13, 65]).2) ∧
      (∀ b, char_is_special b = false → esc_byte b = [b])) :=
  ⟨by decide, by decide, by decide,
    non_special_untouched [[0, 9, 34, 92, 13, 65]] [0, 9, 34, 92, 13, 65]
      (by decide) (by decide) (by decide)⟩

/-- C10: The unreachable branch of `escape_special` is never executed: for
every sequence of `write_all` calls followed by teardown, the run never
hits the `none` (panic) arm — every byte stored in `LastCharWasSpecial`
(and hence every byte the scan hands to `escape_special`) satisfies
`char_is_special`. -/
theorem unreachable_never_hit (cs : List (List Nat)) :
    (ew_process cs).isSome = true ∧
    (∀ out st, ew_run cs = some (out, st) → state_ok st = true) := by
  obtain ⟨out, st', hr, hok⟩ := ew_runFrom_ok cs .Init rfl
  constructor
  · rw [ew_process, ew_run, hr]
    rfl
  · intro out2 st2 h2
    rw [ew_run, hr] at h2
    simp only [Option.some.injEq, Prod.mk.injEq] at h2
    rw [← h2.2]
    exact hok

/-- Witness for C10 at the chunk sequence `[[10]]`. -/
theorem unreachable_never_hit_witness :
    (ew_process [[10]]).isSome = true ∧
    ew_run [[10]] = some (marker_bytes, .LastCharWasSpecial 10) ∧
    state_ok (.LastCharWasSpecial 10) = true :=
  ⟨(unreachable_never_hit [[10]]).1, by decide,
    (unreachable_never_hit [[10]]).2 marker_bytes (.LastCharWasSpecial 10)
      (by decide)⟩
